import Mathlib

/-
  Verification development for the multifs library: an overlay filesystem
  that mounts several backend filesystems under path prefixes.

  The definitions below are a shallow embedding of the Go source
  (multifs.go) together with the parts of the Go standard library it
  relies on (path.Clean, strings.HasPrefix, strings.TrimPrefix,
  strings.Index).  Paths are modelled as Lean strings; the byte-level Go
  operations coincide with the character-level ones used here because all
  delimiter characters involved are ASCII and segments are copied
  wholesale.
-/

namespace Multifs

/-! ### Go standard library string and path primitives -/

/-- Character at index `i` of `l` (Go `buf[i]`); default is arbitrary and
only ever used at in-bounds indices. -/
def getCh (l : List Char) (i : Nat) : Char := l.getD i ' '

/-- Whether the list starts with character `c`. -/
def headIs (l : List Char) (c : Char) : Bool :=
  match l with
  | [] => false
  | x :: _ => x = c

/-- Go `strings.HasPrefix` on character lists: `isPre p s` is true when
`p` is a leading run of `s`. -/
def isPre : List Char → List Char → Bool
  | [], _ => true
  | _ :: _, [] => false
  | a :: as, b :: bs => a = b && isPre as bs

/-- The write-index walk performed by Go `path.Clean` when it meets `..`:
starting from index `w`, step left while the index exceeds `dd` and the
buffer character at the index is not a slash. -/
def wLoop (L : List Char) (dd : Nat) : Nat → Nat
  | 0 => 0
  | w + 1 =>
    if dd < w + 1 && !(getCh L (w + 1) = '/' : Bool) then wLoop L dd w
    else w + 1

/-- The main loop of Go `path.Clean`, with the remaining input as a list
(`rem`, Go index `r`), the output buffer (`out`, Go `out.buf[0:out.w]`)
and the `dotdot` barrier (`dd`).  The `fuel` argument only bounds the
recursion; each iteration consumes at least one input character, so
`rem.length` fuel is always enough. -/
def cleanLoop (rooted : Bool) : Nat → List Char → List Char → Nat → List Char
  | 0, _, out, _ => out
  | fuel + 1, rem, out, dd =>
    match rem with
    | [] => out
    | c :: rest =>
      if c = '/' then
        cleanLoop rooted fuel rest out dd
      else if c = '.' && (rest.isEmpty || headIs rest '/') then
        cleanLoop rooted fuel rest out dd
      else if c = '.' && headIs rest '.' && (rest.tail.isEmpty || headIs rest.tail '/') then
        if dd < out.length then
          cleanLoop rooted fuel rest.tail (out.take (wLoop out dd (out.length - 1))) dd
        else if !rooted then
          let out2 := (if out.length ≠ 0 then out ++ ['/'] else out) ++ ['.', '.']
          cleanLoop rooted fuel rest.tail out2 out2.length
        else
          cleanLoop rooted fuel rest.tail out dd
      else
        let out2 := (if (rooted && out.length ≠ 1) || (!rooted && out.length ≠ 0)
                     then out ++ ['/'] else out)
                    ++ rem.takeWhile (fun ch => !(ch = '/' : Bool))
        cleanLoop rooted fuel (rem.dropWhile (fun ch => !(ch = '/' : Bool))) out2 dd

/-- Go `path.Clean` on a character list.  When the path is rooted the Go
code starts scanning at index 1 with `'/'` already in the buffer; passing
the whole list is equivalent because the leading slash is consumed by the
slash case without touching the buffer. -/
def cleanChars (p : List Char) : List Char :=
  if p.isEmpty then ['.']
  else
    let rooted := headIs p '/'
    let res := cleanLoop rooted p.length p (if rooted then ['/'] else [])
                 (if rooted then 1 else 0)
    if res.isEmpty then ['.'] else res

/-- Go `path.Clean` on strings. -/
def clean (s : String) : String := ⟨cleanChars s.data⟩

/-- Go `strings.HasPrefix s pre`. -/
def hasPre (s pre : String) : Bool := isPre pre.data s.data

/-- Go `strings.TrimPrefix s pre`. -/
def trimPre (s pre : String) : String :=
  if hasPre s pre then ⟨s.data.drop pre.data.length⟩ else s

/-- The segment extraction in `getPseudoDirEntries`: Go
`if i := strings.Index(p, "/"); i >= 0 { s = p[:i] } else { s = p }`,
which is the maximal slash-free leading run. -/
def firstSeg (s : String) : String := ⟨s.data.takeWhile (fun ch => !(ch = '/' : Bool))⟩

/-! ### The multifs data model

`FS` holds `mountPoints`, the list of mounted prefixes kept sorted with
longer prefixes first, and `fsmap`, the prefix-to-backend map (a Go
`map[string]fs.FS`, embedded as an association list; `Mount` only inserts
absent keys and `Unmount` deletes, so association-list and map semantics
coincide on every reachable state).  The backend type is an abstract
parameter `β`; the delegated operations of a backend are passed to each
facade operation as explicit functions. -/

structure FS (β : Type) where
  mountPoints : List String
  fsmap : List (String × β)
  deriving DecidableEq

/-- Go `New()` / the zero `FS` value. -/
def FS.new : FS β := ⟨[], []⟩

/-- Association-list lookup, i.e. the Go map read `fsmap[prefix]`. -/
def lookupA : List (String × β) → String → Option β
  | [], _ => none
  | (k, v) :: rest, p => if k = p then some v else lookupA rest p

/-- Go map delete `delete(fsmap, prefix)`. -/
def eraseA : List (String × β) → String → List (String × β)
  | [], _ => []
  | (k, v) :: rest, p => if k = p then eraseA rest p else (k, v) :: eraseA rest p

/-- The comparison used by `Mount`'s `sort.Slice` call: longer strings
come first. -/
def lenGe (a b : String) : Prop := b.length ≤ a.length

instance : DecidableRel lenGe := fun _ _ => Nat.decLe _ _

instance : IsTotal String lenGe := ⟨fun a b => Nat.le_total b.length a.length⟩

instance : IsTrans String lenGe := ⟨fun _ _ _ h1 h2 => Nat.le_trans h2 h1⟩

/-- The re-sort performed by `Mount`.  Go uses `sort.Slice` with the
`lenGe` comparison; `sort.Slice` leaves the relative order of equal-length
entries unspecified, and no operation of the library can observe that
order (two distinct equal-length prefixes never match one path), so any
`lenGe`-sorted permutation is a faithful model. -/
def sortLenDesc (l : List String) : List String := List.insertionSort lenGe l

/-- Errors of `Mount` and `Unmount` (the three `fmt.Errorf` messages). -/
inductive MountError where
  | invalidPre (normalized : String)
  | alreadyMounted (p : String)
  | notMounted (p : String)
  deriving DecidableEq

/-- Errors of `Open` / `ReadDir` / `Stat`.  `backendErr` carries a
delegated backend error verbatim; `nilBackend` marks the state where a
mount point has no `fsmap` entry (Go would dereference a nil interface
there; the mount invariant makes it unreachable). -/
inductive LookupErr (ε : Type) where
  | notFound (name : String)
  | backendErr (e : ε)
  | nilBackend (p : String)
  deriving DecidableEq

/-- Go `FS.Mount`. -/
def FS.Mount (m : FS β) (pre : String) (other : β) : Except MountError (FS β) :=
  if !hasPre (clean pre) "/" then .error (.invalidPre (clean pre))
  else if (lookupA m.fsmap (clean pre)).isSome then .error (.alreadyMounted (clean pre))
  else .ok ⟨sortLenDesc (m.mountPoints ++ [clean pre]), (clean pre, other) :: m.fsmap⟩

/-- Removal of the first occurrence, i.e. the `append(mountPoints[:i],
mountPoints[i+1:]...)` splice in `Unmount`'s loop. -/
def removeFirst : List String → String → List String
  | [], _ => []
  | x :: xs, p => if x = p then xs else x :: removeFirst xs p

/-- Go `FS.Unmount`.  The removal loop scans `mountPoints` for the first
entry equal to the prefix and deletes the map key only when one is found,
so a map key absent from `mountPoints` would survive; the mount invariant
makes that branch vacuous. -/
def FS.Unmount (m : FS β) (pre : String) : Except MountError (FS β) :=
  if !hasPre (clean pre) "/" then .error (.invalidPre (clean pre))
  else if (lookupA m.fsmap (clean pre)).isNone then .error (.notMounted (clean pre))
  else if clean pre ∈ m.mountPoints then
    .ok ⟨removeFirst m.mountPoints (clean pre), eraseA m.fsmap (clean pre)⟩
  else .ok m

/-- The matching loop shared by `Open`, `ReadDir` and `Stat`: the first
mount point `p` (in the maintained longest-first order) with
`strings.HasPrefix name (p ++ "/")`. -/
def findM : List String → String → Option String
  | [], _ => none
  | p :: ps, n => if hasPre n (p ++ "/") then some p else findM ps n

/-- Embedding of a delegated Go call returning `(T, error)` into the
facade's result type: values and error values pass through unchanged. -/
def passB : Except ε φ → Except (LookupErr ε) φ
  | .ok f => .ok f
  | .error e => .error (.backendErr e)

/-- Go `FS.Open`. -/
def FS.Open (m : FS β) (ob : β → String → Except ε φ) (name : String) :
    Except (LookupErr ε) φ :=
  match findM m.mountPoints (clean name) with
  | some p =>
    match lookupA m.fsmap p with
    | some src => passB (ob src (trimPre (clean name) (p ++ "/")))
    | none => .error (.nilBackend p)
  | none => .error (.notFound (clean name))

/-- A directory entry returned by `ReadDir`: either a synthesized
`dirEntry` (a pseudo-directory carrying only its name) or an entry
produced by a delegated backend call, passed through verbatim. -/
inductive DirEnt (ξ : Type) where
  | pseudo (name : String)
  | fromBackend (e : ξ)
  deriving DecidableEq

/-- The filter of the `getPseudoDirEntries` loop: a mount point is
considered when `base` is empty or is a textual leading run of it. -/
def pseudoMatches (mps : List String) (base : String) : List String :=
  mps.filter (fun p => decide (base = "") || hasPre p base)

/-- First-occurrence deduplication, with the already-seen accumulator. -/
def dedupFirstAux : List String → List String → List String
  | [], _ => []
  | x :: xs, seen =>
    if x ∈ seen then dedupFirstAux xs seen else x :: dedupFirstAux xs (x :: seen)

/-- The key set of the `uniq` map in `getPseudoDirEntries`.  Go iterates
map keys in unspecified order; first-occurrence order is one faithful
choice, and every claim about the listing is order-insensitive. -/
def dedupFirst (l : List String) : List String := dedupFirstAux l []

/-- The names of the entries built by `getPseudoDirEntries mps base`:
for each mount point passing the filter, the leading segment of the
mount point with `base ++ "/"` stripped, deduplicated. -/
def pseudoNames (mps : List String) (base : String) : List String :=
  dedupFirst ((pseudoMatches mps base).map (fun p => firstSeg (trimPre p (base ++ "/"))))

/-- The `matched > 0` flag of `getPseudoDirEntries`. -/
def pseudoMatched (mps : List String) (base : String) : Bool :=
  !(pseudoMatches mps base).isEmpty

/-- The absolute-form adjustment of `ReadDir` and `Stat`: a name that is
not absolute is treated as `"/" ++ name`. -/
def absName (n : String) : String := if hasPre n "/" then n else "/" ++ n

/-- Embedding of a delegated listing call. -/
def passList : Except ε (List ξ) → Except (LookupErr ε) (List (DirEnt ξ))
  | .ok l => .ok (l.map DirEnt.fromBackend)
  | .error e => .error (.backendErr e)

/-- The body of `FS.ReadDir` after the root shortcut and the
absolute-form adjustment, taking the already-adjusted name. -/
def FS.readDirAbs (m : FS β) (rb : β → String → Except ε (List ξ)) (n : String) :
    Except (LookupErr ε) (List (DirEnt ξ)) :=
  match lookupA m.fsmap n with
  | some src => passList (rb src ".")
  | none =>
    match findM m.mountPoints n with
    | some p =>
      match lookupA m.fsmap p with
      | some src => passList (rb src (trimPre n (p ++ "/")))
      | none => .error (.nilBackend p)
    | none =>
      if pseudoMatched m.mountPoints n then
        .ok ((pseudoNames m.mountPoints n).map DirEnt.pseudo)
      else .error (.notFound n)

/-- Go `FS.ReadDir`.  `rb` is the backend listing operation (Go
`fs.ReadDir(src, rel)`). -/
def FS.ReadDir (m : FS β) (rb : β → String → Except ε (List ξ)) (name : String) :
    Except (LookupErr ε) (List (DirEnt ξ)) :=
  if clean name = "." || clean name = "/" then
    .ok ((pseudoNames m.mountPoints "").map DirEnt.pseudo)
  else FS.readDirAbs m rb (absName (clean name))

/-- The synthetic file metadata type `dirFileInfo` with its method
results as fields (`IsDir`, `Size`, `ModTime`; `time.Time{}` is the zero
time, embedded as `0`). -/
structure SynthInfo where
  name : String
  isDir : Bool
  size : Int
  modTime : Nat
  deriving DecidableEq

/-- Go `dirFileInfo(s)` together with its method results. -/
def dirFileInfo (s : String) : SynthInfo := ⟨s, true, 0, 0⟩

/-- A `Stat` result: synthetic metadata or a backend result passed
through verbatim. -/
inductive StatOut (ψ : Type) where
  | synth (i : SynthInfo)
  | fromBackend (fi : ψ)
  deriving DecidableEq

/-- Embedding of a delegated stat call. -/
def passStat : Except ε ψ → Except (LookupErr ε) (StatOut ψ)
  | .ok fi => .ok (.fromBackend fi)
  | .error e => .error (.backendErr e)

/-- The body of `FS.Stat` after the root shortcut and the absolute-form
adjustment. -/
def FS.statAbs (m : FS β) (sb : β → String → Except ε ψ) (n : String) :
    Except (LookupErr ε) (StatOut ψ) :=
  match lookupA m.fsmap n with
  | some src => passStat (sb src ".")
  | none =>
    match findM m.mountPoints n with
    | some p =>
      match lookupA m.fsmap p with
      | some src => passStat (sb src (trimPre n (p ++ "/")))
      | none => .error (.nilBackend p)
    | none => .error (.notFound n)

/-- Go `FS.Stat`.  `sb` is the backend metadata operation (Go
`fs.Stat(src, rel)`). -/
def FS.Stat (m : FS β) (sb : β → String → Except ε ψ) (name : String) :
    Except (LookupErr ε) (StatOut ψ) :=
  if clean name = "." || clean name = "/" then .ok (.synth (dirFileInfo (clean name)))
  else FS.statAbs m sb (absName (clean name))

/-- The states reachable by sequences of `Mount` and `Unmount` calls.
A failing call returns an error and leaves the state unchanged (the lazy
map allocation in `initNoLock` is invisible in this model), so tracking
the successful steps covers every call sequence. -/
inductive Reachable : FS β → Prop where
  | new : Reachable FS.new
  | mount {s : FS β} {pre : String} {b : β} {s' : FS β} :
      Reachable s → FS.Mount s pre b = .ok s' → Reachable s'
  | unmount {s : FS β} {pre : String} {s' : FS β} :
      Reachable s → FS.Unmount s pre = .ok s' → Reachable s'

/-- The invariant maintained by `Mount` and `Unmount`: the mount-point
list carries exactly the map keys, has no duplicates, and is ordered with
longer prefixes first. -/
def Inv (m : FS β) : Prop :=
  (∀ x : String, x ∈ m.mountPoints ↔ (lookupA m.fsmap x).isSome = true)
  ∧ m.mountPoints.Nodup
  ∧ List.Pairwise lenGe m.mountPoints

/-- Concrete backends used in witness and counterexample instances. -/
def okUnitB : Unit → String → Except Unit Unit := fun _ _ => Except.ok ()

/-- A listing backend that always succeeds with an empty listing. -/
def okListB : Unit → String → Except String (List Unit) := fun _ _ => Except.ok []

/-- A listing backend that always fails with the error `"boom"`. -/
def errListB : Unit → String → Except String (List Unit) := fun _ _ => Except.error "boom"

/-- A stat backend that always succeeds. -/
def okStatB : Unit → String → Except String Unit := fun _ _ => Except.ok ()

/-- A stat backend that always fails with the error `"boom"`. -/
def errStatB : Unit → String → Except String Unit := fun _ _ => Except.error "boom"

/-- An open backend that always fails with the error `"boom"`. -/
def errOpenB : Unit → String → Except String Unit := fun _ _ => Except.error "boom"

end Multifs

deriving instance DecidableEq for Except

namespace Multifs

/-! ### Sanity checks: the `path.Clean` embedding on Go's documented
examples -/

theorem clean_empty : clean "" = "." := by decide

theorem clean_slashes : clean "//a//b/" = "/a/b" := by decide

theorem clean_dot_segments : clean "/a/./b" = "/a/b" := by decide

theorem clean_dotdot : clean "/a/b/.." = "/a" := by decide

theorem clean_dotdot_past_root : clean "/../a" = "/a" := by decide

theorem clean_rel_dotdot : clean "a/../../b" = "../b" := by decide

theorem clean_trailing : clean "/foo/" = "/foo" := by decide

theorem clean_root : clean "/" = "/" := by decide

theorem clean_rel : clean "quux/1.txt" = "quux/1.txt" := by decide

/-! ### Helper lemmas on the string primitives -/

theorem strData_append (a b : String) : (a ++ b).data = a.data ++ b.data := rfl

theorem isPre_length {p s : List Char} (h : isPre p s = true) : p.length ≤ s.length := by
  induction p generalizing s with
  | nil => simp
  | cons a as ih =>
    cases s with
    | nil => simp [isPre] at h
    | cons b bs =>
      simp only [isPre, Bool.and_eq_true, decide_eq_true_eq] at h
      simpa using ih h.2

theorem isPre_eq_of_length {p s : List Char} (h : isPre p s = true)
    (hl : s.length ≤ p.length) : p = s := by
  induction p generalizing s with
  | nil => cases s with
    | nil => rfl
    | cons b bs => simp at hl
  | cons a as ih =>
    cases s with
    | nil => simp [isPre] at h
    | cons b bs =>
      simp only [isPre, Bool.and_eq_true, decide_eq_true_eq] at h
      simp only [List.length_cons, Nat.succ_le_succ_iff] at hl
      rw [h.1, ih h.2 hl]

/-- An absolute path (leading slash) is never matched by `hasPre` against
`p ++ "/"` when the candidate has no leading slash. -/
theorem hasPre_slash_none {p n : String} (h1 : hasPre p "/" = true)
    (h2 : hasPre n "/" = false) : hasPre n (p ++ "/") = false := by
  unfold hasPre at *
  have hslash : ("/" : String).data = ['/'] := rfl
  rw [hslash] at h1 h2
  rw [strData_append, hslash]
  cases hp : p.data with
  | nil => rw [hp] at h1; simp [isPre] at h1
  | cons c cs =>
    rw [hp] at h1
    simp only [isPre, Bool.and_true] at h1
    cases hn : n.data with
    | nil => simp [isPre]
    | cons d ds =>
      rw [hn] at h2
      simp only [isPre, Bool.and_true] at h2
      have hc : c = '/' := (of_decide_eq_true h1).symm
      subst hc
      simp only [List.cons_append, isPre]
      rw [h2, Bool.false_and]

theorem mem_dedupFirstAux {l seen : List String} {x : String} :
    x ∈ dedupFirstAux l seen ↔ x ∈ l ∧ x ∉ seen := by
  induction l generalizing seen with
  | nil => simp [dedupFirstAux]
  | cons a as ih =>
    by_cases ha : a ∈ seen
    · rw [dedupFirstAux, if_pos ha, ih]
      constructor
      · rintro ⟨h1, h2⟩
        exact ⟨List.mem_cons_of_mem a h1, h2⟩
      · rintro ⟨h1, h2⟩
        rcases List.mem_cons.1 h1 with rfl | h1'
        · exact absurd ha h2
        · exact ⟨h1', h2⟩
    · rw [dedupFirstAux, if_neg ha]
      constructor
      · intro hmem
        rcases List.mem_cons.1 hmem with rfl | hmem'
        · exact ⟨List.mem_cons_self _ _, ha⟩
        · rcases ih.1 hmem' with ⟨h1, h2⟩
          exact ⟨List.mem_cons_of_mem a h1,
            fun hc => h2 (List.mem_cons.2 (Or.inr hc))⟩
      · rintro ⟨h1, h2⟩
        rcases List.mem_cons.1 h1 with rfl | h1'
        · exact List.mem_cons_self _ _
        · by_cases hxa : x = a
          · subst hxa; exact List.mem_cons_self _ _
          · refine List.mem_cons_of_mem a (ih.2 ⟨h1', fun hc => ?_⟩)
            rcases List.mem_cons.1 hc with h | h
            · exact hxa h
            · exact h2 h

theorem mem_dedupFirst {l : List String} {x : String} :
    x ∈ dedupFirst l ↔ x ∈ l := by
  simp [dedupFirst, mem_dedupFirstAux]

theorem nodup_dedupFirstAux (l : List String) (seen : List String) :
    (dedupFirstAux l seen).Nodup := by
  induction l generalizing seen with
  | nil => simp [dedupFirstAux]
  | cons a as ih =>
    by_cases ha : a ∈ seen
    · simpa [dedupFirstAux, if_pos ha] using ih seen
    · rw [dedupFirstAux, if_neg ha]
      refine List.Nodup.cons ?_ (ih (a :: seen))
      intro hc
      rcases mem_dedupFirstAux.1 hc with ⟨_, h2⟩
      exact h2 (List.mem_cons_self a seen)

theorem nodup_dedupFirst (l : List String) : (dedupFirst l).Nodup :=
  nodup_dedupFirstAux l []

/-! ### Helper lemmas on the table primitives -/

theorem lookupA_isSome_iff {l : List (String × β)} {x : String} :
    (lookupA l x).isSome = true ↔ x ∈ l.map Prod.fst := by
  induction l with
  | nil => simp [lookupA]
  | cons kv rest ih =>
    obtain ⟨k, v⟩ := kv
    by_cases hk : k = x
    · subst hk; simp [lookupA]
    · simp [lookupA, hk, ih, Ne.symm hk]

theorem lookupA_eraseA {l : List (String × β)} {p x : String} :
    lookupA (eraseA l p) x = if x = p then none else lookupA l x := by
  induction l with
  | nil => simp [eraseA, lookupA]
  | cons kv rest ih =>
    obtain ⟨k, v⟩ := kv
    by_cases hkp : k = p
    · subst hkp
      by_cases hxp : x = k
      · subst hxp; simp [eraseA, ih]
      · simp [eraseA, lookupA, ih, hxp, Ne.symm hxp]
    · by_cases hkx : k = x
      · subst hkx
        simp [eraseA, lookupA, hkp, Ne.symm hkp]
      · simp [eraseA, lookupA, hkp, hkx, ih]

theorem findM_eq_none_iff {mps : List String} {n : String} :
    findM mps n = none ↔ ∀ p ∈ mps, hasPre n (p ++ "/") = false := by
  induction mps with
  | nil => simp [findM]
  | cons a as ih =>
    by_cases h : hasPre n (a ++ "/") = true
    · simp [findM, h]
    · simp only [Bool.not_eq_true] at h
      simp [findM, h, ih]

theorem findM_some {mps : List String} {n p : String} (h : findM mps n = some p) :
    p ∈ mps ∧ hasPre n (p ++ "/") = true := by
  induction mps with
  | nil => simp [findM] at h
  | cons a as ih =>
    by_cases ha : hasPre n (a ++ "/") = true
    · rw [findM, if_pos ha] at h
      have hap : a = p := by injection h
      subst hap
      exact ⟨List.mem_cons_self _ _, ha⟩
    · rw [findM, if_neg ha] at h
      rcases ih h with ⟨h1, h2⟩
      exact ⟨List.mem_cons_of_mem a h1, h2⟩

/-- On a table sorted with longer entries first, the first match is a
longest match. -/
theorem findM_longest {mps : List String} {n p : String}
    (hs : List.Pairwise lenGe mps) (h : findM mps n = some p) :
    ∀ q ∈ mps, hasPre n (q ++ "/") = true → q.length ≤ p.length := by
  induction mps with
  | nil => simp [findM] at h
  | cons a as ih =>
    rcases List.pairwise_cons.1 hs with ⟨ha, hs'⟩
    by_cases hm : hasPre n (a ++ "/") = true
    · rw [findM, if_pos hm] at h
      have hap : a = p := by injection h
      subst hap
      intro q hq _
      rcases List.mem_cons.1 hq with rfl | hq'
      · exact Nat.le_refl _
      · exact ha q hq'
    · rw [findM, if_neg hm] at h
      intro q hq hmatch
      rcases List.mem_cons.1 hq with rfl | hq'
      · exact absurd hmatch hm
      · exact ih hs' h q hq' hmatch

theorem removeFirst_sublist (l : List String) (p : String) :
    List.Sublist (removeFirst l p) l := by
  induction l with
  | nil => simp [removeFirst]
  | cons x xs ih =>
    by_cases h : x = p
    · rw [removeFirst, if_pos h]
      exact List.Sublist.cons x (List.Sublist.refl xs)
    · rw [removeFirst, if_neg h]
      exact List.Sublist.cons₂ x ih

theorem mem_removeFirst_of_nodup {l : List String} {p x : String} (hn : l.Nodup) :
    x ∈ removeFirst l p ↔ x ∈ l ∧ x ≠ p := by
  induction l with
  | nil => simp [removeFirst]
  | cons a as ih =>
    rcases List.nodup_cons.1 hn with ⟨hna, hnas⟩
    by_cases hap : a = p
    · subst hap
      rw [removeFirst, if_pos rfl]
      simp only [List.mem_cons]
      constructor
      · intro hx
        refine ⟨Or.inr hx, ?_⟩
        rintro rfl
        exact hna hx
      · rintro ⟨rfl | hx, hne⟩
        · exact absurd rfl hne
        · exact hx
    · rw [removeFirst, if_neg hap]
      simp only [List.mem_cons, ih hnas]
      constructor
      · rintro (rfl | ⟨h1, h2⟩)
        · exact ⟨Or.inl rfl, hap⟩
        · exact ⟨Or.inr h1, h2⟩
      · rintro ⟨rfl | h1, h2⟩
        · exact Or.inl rfl
        · exact Or.inr ⟨h1, h2⟩

/-! ### The mount-table invariant -/

theorem inv_new : Inv (FS.new : FS β) := by
  refine ⟨?_, ?_, ?_⟩ <;> simp [FS.new, lookupA]

theorem inv_mount {s s' : FS β} {pre : String} {b : β}
    (ih : Inv s) (hok : FS.Mount s pre b = .ok s') : Inv s' := by
  rcases ih with ⟨hmem, hnod, hpair⟩
  unfold FS.Mount at hok
  by_cases h1 : hasPre (clean pre) "/" = true
  · rw [if_neg (by simp [h1])] at hok
    by_cases h2 : (lookupA s.fsmap (clean pre)).isSome = true
    · rw [if_pos h2] at hok; cases hok
    · rw [if_neg h2] at hok
      cases hok
      have hnotmem : clean pre ∉ s.mountPoints := fun hc => h2 ((hmem _).1 hc)
      have hperm : List.Perm (sortLenDesc (s.mountPoints ++ [clean pre]))
          (s.mountPoints ++ [clean pre]) := List.perm_insertionSort lenGe _
      refine ⟨?_, ?_, ?_⟩
      · intro x
        show x ∈ sortLenDesc (s.mountPoints ++ [clean pre])
            ↔ (lookupA ((clean pre, b) :: s.fsmap) x).isSome = true
        rw [hperm.mem_iff, List.mem_append, List.mem_singleton,
          show lookupA ((clean pre, b) :: s.fsmap) x
            = if clean pre = x then some b else lookupA s.fsmap x from rfl]
        by_cases hx : clean pre = x
        · subst hx; simp
        · have hx' : ¬(x = clean pre) := fun h => hx h.symm
          rw [if_neg hx]
          simp [hx', hmem x]
      · show (sortLenDesc (s.mountPoints ++ [clean pre])).Nodup
        rw [hperm.nodup_iff, List.nodup_append]
        refine ⟨hnod, List.nodup_singleton _, ?_⟩
        intro a ha hamem
        rw [List.mem_singleton] at hamem
        subst hamem
        exact hnotmem ha
      · show List.Pairwise lenGe (sortLenDesc (s.mountPoints ++ [clean pre]))
        exact List.sorted_insertionSort lenGe _
  · rw [if_pos (by simp [h1])] at hok; cases hok

theorem inv_unmount {s s' : FS β} {pre : String}
    (ih : Inv s) (hok : FS.Unmount s pre = .ok s') : Inv s' := by
  rcases ih with ⟨hmem, hnod, hpair⟩
  unfold FS.Unmount at hok
  by_cases h1 : hasPre (clean pre) "/" = true
  · rw [if_neg (by simp [h1])] at hok
    by_cases h2 : (lookupA s.fsmap (clean pre)).isNone = true
    · rw [if_pos h2] at hok; cases hok
    · rw [if_neg h2] at hok
      by_cases h3 : clean pre ∈ s.mountPoints
      · rw [if_pos h3] at hok
        cases hok
        refine ⟨?_, ?_, ?_⟩
        · intro x
          show x ∈ removeFirst s.mountPoints (clean pre)
              ↔ (lookupA (eraseA s.fsmap (clean pre)) x).isSome = true
          rw [mem_removeFirst_of_nodup hnod, lookupA_eraseA]
          by_cases hx : x = clean pre
          · simp [hx]
          · simp [hx, hmem x]
        · exact List.Nodup.sublist (removeFirst_sublist _ _) hnod
        · exact List.Pairwise.sublist (removeFirst_sublist _ _) hpair
      · rw [if_neg h3] at hok
        cases hok
        exact ⟨hmem, hnod, hpair⟩
  · rw [if_pos (by simp [h1])] at hok; cases hok

theorem inv_reachable {m : FS β} (h : Reachable m) : Inv m := by
  induction h with
  | new => exact inv_new
  | mount _ hok ih => exact inv_mount ih hok
  | unmount _ hok ih => exact inv_unmount ih hok

/-! ### Further helper lemmas -/

theorem passB_ne_notFound (r : Except ε φ) (s : String) :
    passB r ≠ Except.error (LookupErr.notFound s) := by
  cases r <;> simp [passB]

theorem passList_ne_notFound {ε ξ : Type} (r : Except ε (List ξ)) (s : String) :
    passList r ≠ Except.error (LookupErr.notFound s) := by
  cases r <;> simp [passList]

theorem pseudoMatches_root (mps : List String) : pseudoMatches mps "" = mps := by
  unfold pseudoMatches
  induction mps with
  | nil => rfl
  | cons a as ih => rw [List.filter_cons, if_pos (by simp), ih]

theorem mem_pseudoNames {mps : List String} {base s : String} (hb : base ≠ "") :
    s ∈ pseudoNames mps base
      ↔ ∃ p, p ∈ mps ∧ hasPre p base = true
          ∧ firstSeg (trimPre p (base ++ "/")) = s := by
  unfold pseudoNames pseudoMatches
  rw [mem_dedupFirst]
  simp only [List.mem_map, List.mem_filter, decide_eq_false hb, Bool.false_or]
  constructor
  · rintro ⟨p, ⟨hp1, hp2⟩, hp3⟩
    exact ⟨p, hp1, hp2, hp3⟩
  · rintro ⟨p, hp1, hp2, hp3⟩
    exact ⟨p, ⟨hp1, hp2⟩, hp3⟩

theorem mem_pseudoNames_root {mps : List String} {s : String} :
    s ∈ pseudoNames mps ""
      ↔ ∃ p, p ∈ mps ∧ firstSeg (trimPre p "/") = s := by
  unfold pseudoNames
  rw [mem_dedupFirst, pseudoMatches_root]
  have hb : ("" : String) ++ "/" = "/" := rfl
  rw [hb]
  simp [List.mem_map]

theorem pseudoMatched_iff {mps : List String} {base : String} (hb : base ≠ "") :
    pseudoMatched mps base = true ↔ ∃ p, p ∈ mps ∧ hasPre p base = true := by
  unfold pseudoMatched
  constructor
  · intro h
    cases hf : pseudoMatches mps base with
    | nil => rw [hf] at h; simp [List.isEmpty] at h
    | cons q qs =>
      have hq : q ∈ pseudoMatches mps base := by
        rw [hf]; exact List.mem_cons_self _ _
      rcases List.mem_filter.1 hq with ⟨hq1, hq2⟩
      rw [decide_eq_false hb, Bool.false_or] at hq2
      exact ⟨q, hq1, hq2⟩
  · rintro ⟨p, hp1, hp2⟩
    have hp : p ∈ pseudoMatches mps base :=
      List.mem_filter.2 ⟨hp1, by rw [decide_eq_false hb, Bool.false_or]; exact hp2⟩
    cases hf : pseudoMatches mps base with
    | nil => rw [hf] at hp; cases hp
    | cons q qs => rfl

theorem hasPre_absName (y : String) : hasPre (absName y) "/" = true := by
  unfold absName
  by_cases h : hasPre y "/" = true
  · rw [if_pos h]; exact h
  · rw [if_neg h]
    show isPre ("/" : String).data ("/" ++ y).data = true
    rw [strData_append]
    rfl

theorem absName_ne_empty (y : String) : absName y ≠ "" := fun hc =>
  absurd (hc ▸ hasPre_absName y) (by decide)

/-! ### Claim C1 -/

/-- C1, counterexample.  The claim says open on a path equal to a mount
prefix delegates to that backend's open with `"."`.  In the code the
matching loop of `Open` only tests `prefix ++ "/"`, so with `"/foo"`
mounted, `Open "/foo"` fails with not-found instead of delegating, even
though the backend's own open at `"."` would succeed. -/
theorem claim1_counterexample :
    FS.Open (⟨["/foo"], [("/foo", ())]⟩ : FS Unit) okUnitB "/foo"
        = Except.error (LookupErr.notFound "/foo")
    ∧ okUnitB () "." = Except.ok ()
    ∧ FS.Open (⟨["/foo"], [("/foo", ())]⟩ : FS Unit) okUnitB "/foo"
        ≠ passB (okUnitB () ".") := by
  refine ⟨rfl, rfl, ?_⟩
  decide

/-- C1, amended: `Open` delegates exactly when the normalized path
strictly extends some mount prefix followed by `"/"` (taking the first
match in the maintained order and stripping `prefix ++ "/"`), and fails
with not-found exactly when no mount prefix extended by `"/"` is a
leading run of the normalized path — in particular a path that merely
equals a mount prefix is not matched by the loop. -/
theorem claim1_amended {β ε φ : Type} (m : FS β) (ob : β → String → Except ε φ)
    (name : String)
    (hcover : ∀ p ∈ m.mountPoints, (lookupA m.fsmap p).isSome = true) :
    (FS.Open m ob name = Except.error (LookupErr.notFound (clean name))
        ↔ findM m.mountPoints (clean name) = none)
    ∧ (∀ p, findM m.mountPoints (clean name) = some p →
        ∃ src, lookupA m.fsmap p = some src
          ∧ FS.Open m ob name = passB (ob src (trimPre (clean name) (p ++ "/")))) := by
  cases hf : findM m.mountPoints (clean name) with
  | none =>
    have hopen : FS.Open m ob name = Except.error (LookupErr.notFound (clean name)) := by
      simp only [FS.Open, hf]
    refine ⟨⟨fun _ => rfl, fun _ => hopen⟩, ?_⟩
    intro p hp
    cases hp
  | some p =>
    have hmem := (findM_some hf).1
    rcases Option.isSome_iff_exists.1 (hcover p hmem) with ⟨src, hsrc⟩
    have hopen : FS.Open m ob name
        = passB (ob src (trimPre (clean name) (p ++ "/"))) := by
      simp only [FS.Open, hf, hsrc]
    constructor
    · constructor
      · intro h
        rw [hopen] at h
        exact absurd h (passB_ne_notFound _ _)
      · intro h; cases h
    · intro q hq
      have hpq : p = q := by injection hq
      subst hpq
      exact ⟨src, hsrc, hopen⟩

/-- C1 witness: with only `"/x"` mounted, opening `"/x/y"` delegates with
relative path `"y"`, and opening a path matching no `prefix ++ "/"`
yields not-found. -/
theorem claim1_witness :
    FS.Open (⟨["/x"], [("/x", ())]⟩ : FS Unit) okUnitB "/x/y"
        = passB (okUnitB () "y")
    ∧ FS.Open (⟨["/x"], [("/x", ())]⟩ : FS Unit) okUnitB "/y"
        = Except.error (LookupErr.notFound "/y") := by
  have h1 := claim1_amended (⟨["/x"], [("/x", ())]⟩ : FS Unit) okUnitB "/x/y"
    (by decide)
  have h2 := claim1_amended (⟨["/x"], [("/x", ())]⟩ : FS Unit) okUnitB "/y"
    (by decide)
  constructor
  · rcases h1.2 "/x" (by decide) with ⟨src, hsrc, hopen⟩
    have hsrc' : src = () := rfl
    rw [hopen, hsrc']
    rfl
  · exact h2.1.mpr (by decide)

/-! ### Claim C2 -/

/-- C2: longest-prefix precedence.  In general, on a table ordered with
longer prefixes first, the first match found by the loop is a longest
match.  Concretely, mounting `/a` (backend `X`) and `/a/b` (backend `Y`)
in either order produces the same longest-first table, on which
`Open "/a/b/f.txt"` delegates to `Y` with `"f.txt"` and
`Open "/a/f.txt"` delegates to `X` with `"f.txt"`. -/
theorem claim2_longest {β ε φ : Type} (X Y : β) (ob : β → String → Except ε φ) :
    (∀ (m : FS β) (n p : String), List.Pairwise lenGe m.mountPoints →
      findM m.mountPoints n = some p →
      ∀ q ∈ m.mountPoints, hasPre n (q ++ "/") = true → q.length ≤ p.length)
    ∧ FS.Mount (FS.new : FS β) "/a" X = .ok ⟨["/a"], [("/a", X)]⟩
    ∧ FS.Mount (⟨["/a"], [("/a", X)]⟩ : FS β) "/a/b" Y
        = .ok ⟨["/a/b", "/a"], [("/a/b", Y), ("/a", X)]⟩
    ∧ FS.Mount (FS.new : FS β) "/a/b" Y = .ok ⟨["/a/b"], [("/a/b", Y)]⟩
    ∧ FS.Mount (⟨["/a/b"], [("/a/b", Y)]⟩ : FS β) "/a" X
        = .ok ⟨["/a/b", "/a"], [("/a", X), ("/a/b", Y)]⟩
    ∧ FS.Open (⟨["/a/b", "/a"], [("/a/b", Y), ("/a", X)]⟩ : FS β) ob "/a/b/f.txt"
        = passB (ob Y "f.txt")
    ∧ FS.Open (⟨["/a/b", "/a"], [("/a/b", Y), ("/a", X)]⟩ : FS β) ob "/a/f.txt"
        = passB (ob X "f.txt")
    ∧ FS.Open (⟨["/a/b", "/a"], [("/a", X), ("/a/b", Y)]⟩ : FS β) ob "/a/b/f.txt"
        = passB (ob Y "f.txt")
    ∧ FS.Open (⟨["/a/b", "/a"], [("/a", X), ("/a/b", Y)]⟩ : FS β) ob "/a/f.txt"
        = passB (ob X "f.txt") := by
  refine ⟨?_, rfl, rfl, rfl, rfl, rfl, rfl, rfl, rfl⟩
  intro m n p hs hf q hq hmatch
  exact findM_longest hs hf q hq hmatch

/-- C2 witness: the longest-match conjunct applied on the concrete
two-mount table. -/
theorem claim2_witness :
    ("/a" : String).length ≤ ("/a/b" : String).length
    ∧ FS.Open (⟨["/a/b", "/a"], [("/a/b", ()), ("/a", ())]⟩ : FS Unit) okUnitB
        "/a/b/f.txt" = passB (okUnitB () "f.txt") := by
  have h := claim2_longest (β := Unit) (ε := Unit) (φ := Unit) () () okUnitB
  refine ⟨?_, h.2.2.2.2.2.1⟩
  exact h.1 ⟨["/a/b", "/a"], [("/a/b", ()), ("/a", ())]⟩ "/a/b/f.txt" "/a/b"
    (by decide) (by decide) "/a" (by decide) (by decide)

/-! ### Claim C3 -/

/-- C3, counterexample.  The claim says stat returns a synthetic
directory descriptor for the root, for exact mount prefixes, and for
strict ancestors of mount prefixes.  In the code, stat on a strict
ancestor of a mount prefix (here `"/a"` with only `"/a/b"` mounted,
which matches `hasPre "/a/b" ("/a" ++ "/")`) fails with not-found, and
stat on an exact mount prefix delegates to the backend (the backend
error `"boom"` surfaces) instead of synthesizing. -/
theorem claim3_counterexample :
    FS.Stat (⟨["/a/b"], [("/a/b", ())]⟩ : FS Unit) okStatB "/a"
        = Except.error (LookupErr.notFound "/a")
    ∧ hasPre "/a/b" ("/a" ++ "/") = true
    ∧ FS.Stat (⟨["/a/b"], [("/a/b", ())]⟩ : FS Unit) errStatB "/a/b"
        = Except.error (LookupErr.backendErr "boom") :=
  ⟨rfl, rfl, rfl⟩

/-- C3, amended: stat synthesizes a directory descriptor (directory flag
set, size zero, zero modification time) only for the root (`"."` or
`"/"`); for an exact mount prefix it delegates to the backend's stat
with `"."`; for a path strictly under a mount prefix it delegates with
the stripped relative path; any other path — including a strict ancestor
of a mount prefix — fails with not-found. -/
theorem claim3_amended {β ε ψ : Type} (m : FS β) (sb : β → String → Except ε ψ)
    (name : String) :
    (clean name = "." ∨ clean name = "/" →
        FS.Stat m sb name = .ok (.synth (dirFileInfo (clean name)))
        ∧ (dirFileInfo (clean name)).isDir = true
        ∧ (dirFileInfo (clean name)).size = 0
        ∧ (dirFileInfo (clean name)).modTime = 0)
    ∧ (¬(clean name = "." ∨ clean name = "/") →
        (∀ src, lookupA m.fsmap (absName (clean name)) = some src →
            FS.Stat m sb name = passStat (sb src "."))
        ∧ (lookupA m.fsmap (absName (clean name)) = none →
            (∀ p src, findM m.mountPoints (absName (clean name)) = some p →
                lookupA m.fsmap p = some src →
                FS.Stat m sb name
                  = passStat (sb src (trimPre (absName (clean name)) (p ++ "/"))))
            ∧ (findM m.mountPoints (absName (clean name)) = none →
                FS.Stat m sb name
                  = .error (.notFound (absName (clean name)))))) := by
  constructor
  · intro hroot
    have hstat : FS.Stat m sb name = .ok (.synth (dirFileInfo (clean name))) := by
      rcases hroot with h | h <;> simp [FS.Stat, h]
    exact ⟨hstat, rfl, rfl, rfl⟩
  · intro hroot
    have hne1 : ¬(clean name = ".") := fun hc => hroot (Or.inl hc)
    have hne2 : ¬(clean name = "/") := fun hc => hroot (Or.inr hc)
    refine ⟨?_, ?_⟩
    · intro src hsrc
      simp [FS.Stat, FS.statAbs, hne1, hne2, hsrc]
    · intro hnone
      refine ⟨?_, ?_⟩
      · intro p src hf hsrc
        simp [FS.Stat, FS.statAbs, hne1, hne2, hnone, hf, hsrc]
      · intro hf
        simp [FS.Stat, FS.statAbs, hne1, hne2, hnone, hf]

/-- C3 witness: stat on an unmatched path errs, and stat strictly under
a mount delegates with the stripped relative path. -/
theorem claim3_witness :
    FS.Stat (⟨["/q"], [("/q", ())]⟩ : FS Unit) okStatB "/nope"
        = Except.error (LookupErr.notFound "/nope")
    ∧ FS.Stat (⟨["/q"], [("/q", ())]⟩ : FS Unit) okStatB "/q/f"
        = passStat (okStatB () "f") := by
  have h := claim3_amended (⟨["/q"], [("/q", ())]⟩ : FS Unit) okStatB "/nope"
  have h2 := claim3_amended (⟨["/q"], [("/q", ())]⟩ : FS Unit) okStatB "/q/f"
  refine ⟨((h.2 (by decide)).2 rfl).2 (by decide), ?_⟩
  exact ((h2.2 (by decide)).2 rfl).1 "/q" () (by decide) rfl

/-! ### Claim C4 -/

/-- C4, counterexample.  The claim says listing `"/a"` when only `"/ab"`
is mounted must fail with not-found.  The matching in
`getPseudoDirEntries` is textual (`strings.HasPrefix prefix base` with no
`"/"` boundary), so `"/ab"` counts as a match for base `"/a"` and the
call succeeds, returning one pseudo-entry whose name is the empty
string. -/
theorem claim4_counterexample :
    FS.ReadDir (⟨["/ab"], [("/ab", ())]⟩ : FS Unit) okListB "/a"
        = Except.ok [DirEnt.pseudo ""]
    ∧ FS.ReadDir (⟨["/ab"], [("/ab", ())]⟩ : FS Unit) okListB "/a"
        ≠ Except.error (LookupErr.notFound "/a") :=
  ⟨rfl, by decide⟩

/-- C4, amended: for a queried path that reaches the pseudo-directory
branch, a mount prefix counts as a match when the query is a textual
leading run of it (no path-segment boundary is enforced); the listing
succeeds exactly when some mount prefix matches textually, and then
contains exactly one entry per distinct name computed as the leading
segment of the mount prefix with `query ++ "/"` stripped (the empty name
when the prefix extends the query without an intervening slash),
deduplicated; with no textual match the call fails with not-found. -/
theorem claim4_amended {β ε ξ : Type} (m : FS β)
    (rb : β → String → Except ε (List ξ)) (name : String)
    (h1 : clean name ≠ ".") (h2 : clean name ≠ "/")
    (h3 : lookupA m.fsmap (absName (clean name)) = none)
    (h4 : findM m.mountPoints (absName (clean name)) = none) :
    (pseudoMatched m.mountPoints (absName (clean name)) = true
        ↔ ∃ p, p ∈ m.mountPoints ∧ hasPre p (absName (clean name)) = true)
    ∧ (pseudoMatched m.mountPoints (absName (clean name)) = false →
        FS.ReadDir m rb name = .error (.notFound (absName (clean name))))
    ∧ (pseudoMatched m.mountPoints (absName (clean name)) = true →
        FS.ReadDir m rb name
          = .ok ((pseudoNames m.mountPoints (absName (clean name))).map DirEnt.pseudo)
        ∧ (pseudoNames m.mountPoints (absName (clean name))).Nodup
        ∧ (∀ s, s ∈ pseudoNames m.mountPoints (absName (clean name))
            ↔ ∃ p, p ∈ m.mountPoints ∧ hasPre p (absName (clean name)) = true
                ∧ firstSeg (trimPre p (absName (clean name) ++ "/")) = s)) := by
  have hb := absName_ne_empty (clean name)
  refine ⟨pseudoMatched_iff hb, ?_, ?_⟩
  · intro hm
    simp [FS.ReadDir, FS.readDirAbs, h1, h2, h3, h4, hm]
  · intro hm
    refine ⟨?_, nodup_dedupFirst _, fun s => mem_pseudoNames hb⟩
    simp [FS.ReadDir, FS.readDirAbs, h1, h2, h3, h4, hm]

/-- C4 witness: listing the common ancestor `"/a"` of mounts `"/a/b"`
and `"/a/c"` yields exactly the pseudo-entries `b` and `c`. -/
theorem claim4_witness :
    FS.ReadDir (⟨["/a/b", "/a/c"], [("/a/b", ()), ("/a/c", ())]⟩ : FS Unit)
        okListB "/a"
      = Except.ok [DirEnt.pseudo "b", DirEnt.pseudo "c"] := by
  have h := claim4_amended (⟨["/a/b", "/a/c"], [("/a/b", ()), ("/a/c", ())]⟩ : FS Unit)
    okListB "/a" (by decide) (by decide) rfl (by decide)
  exact ((h.2.2 (by decide)).1).trans (by decide)

/-! ### Claim C5 -/

/-- C5: listing the root (`"."` or `"/"`) returns exactly one
pseudo-entry per distinct first path segment of the mount prefixes (the
leading segment after the leading slash), deduplicated, and nothing
else; concretely, with `"/quux"` and `"/corge"` mounted, listing `"."`
yields exactly the entries `quux` and `corge`. -/
theorem claim5_root_listing {β ε ξ : Type} :
    (∀ (m : FS β) (rb : β → String → Except ε (List ξ)),
        FS.ReadDir m rb "."
          = .ok ((pseudoNames m.mountPoints "").map DirEnt.pseudo)
        ∧ FS.ReadDir m rb "/"
          = .ok ((pseudoNames m.mountPoints "").map DirEnt.pseudo))
    ∧ (∀ mps : List String, (pseudoNames mps "").Nodup
        ∧ (∀ s, s ∈ pseudoNames mps ""
            ↔ ∃ p, p ∈ mps ∧ firstSeg (trimPre p "/") = s))
    ∧ (∀ (u v : β) (rb : β → String → Except ε (List ξ)),
        FS.ReadDir (⟨["/quux", "/corge"], [("/quux", u), ("/corge", v)]⟩ : FS β)
            rb "."
          = .ok [DirEnt.pseudo "quux", DirEnt.pseudo "corge"]) := by
  refine ⟨fun m rb => ⟨rfl, rfl⟩, ?_, fun u v rb => rfl⟩
  intro mps
  exact ⟨nodup_dedupFirst _, fun s => mem_pseudoNames_root⟩

/-! ### Claim C6 -/

/-- C6: mount normalizes its prefix lexically and fails with
invalid-prefix exactly when the normalized result does not begin with
`"/"`, fails with already-mounted exactly when the identical normalized
prefix is already bound, and otherwise inserts the binding and
re-sorts; `"/foo/"` and `"/foo"` normalize identically, so whichever is
mounted second fails with already-mounted. -/
theorem claim6_mount {β : Type} (m : FS β) (pre : String) (b : β) :
    (hasPre (clean pre) "/" = false →
        FS.Mount m pre b = .error (.invalidPre (clean pre)))
    ∧ (hasPre (clean pre) "/" = true → (lookupA m.fsmap (clean pre)).isSome = true →
        FS.Mount m pre b = .error (.alreadyMounted (clean pre)))
    ∧ (hasPre (clean pre) "/" = true → (lookupA m.fsmap (clean pre)).isSome = false →
        FS.Mount m pre b
          = .ok ⟨sortLenDesc (m.mountPoints ++ [clean pre]),
              (clean pre, b) :: m.fsmap⟩)
    ∧ clean "/foo/" = clean "/foo"
    ∧ FS.Mount (FS.new : FS β) "/foo/" b = .ok ⟨["/foo"], [("/foo", b)]⟩
    ∧ (∀ b2 : β, FS.Mount (⟨["/foo"], [("/foo", b)]⟩ : FS β) "/foo" b2
        = .error (.alreadyMounted "/foo"))
    ∧ FS.Mount (FS.new : FS β) "/foo" b = .ok ⟨["/foo"], [("/foo", b)]⟩
    ∧ (∀ b2 : β, FS.Mount (⟨["/foo"], [("/foo", b)]⟩ : FS β) "/foo/" b2
        = .error (.alreadyMounted "/foo")) := by
  refine ⟨?_, ?_, ?_, by decide, rfl, fun _ => rfl, rfl, fun _ => rfl⟩
  · intro h
    simp [FS.Mount, h]
  · intro h1 h2
    simp [FS.Mount, h1, h2]
  · intro h1 h2
    simp [FS.Mount, h1, h2]

/-- C6 witness: a relative prefix is rejected as invalid after
normalization, and re-mounting under a trailing slash collides. -/
theorem claim6_witness :
    FS.Mount (FS.new : FS Unit) "foo" () = .error (.invalidPre "foo")
    ∧ FS.Mount (⟨["/foo"], [("/foo", ())]⟩ : FS Unit) "/foo/" ()
        = .error (.alreadyMounted "/foo") := by
  have h := claim6_mount (FS.new : FS Unit) "foo" ()
  have h2 := claim6_mount (⟨["/foo"], [("/foo", ())]⟩ : FS Unit) "/foo/" ()
  exact ⟨h.1 (by decide), h2.2.1 (by decide) (by decide)⟩

/-! ### Claim C7 -/

/-- C7: unmount normalizes its prefix and rejects non-absolute results
as invalid exactly as mount does, fails with not-mounted exactly when no
binding carries the normalized prefix, and otherwise removes exactly
that binding (the removed key, and no other, disappears from the map);
unmounting a never-mounted prefix fails, and a second unmount of the
same prefix fails after the first succeeded. -/
theorem claim7_unmount {β : Type} (m : FS β) (pre : String) (b : β) :
    (hasPre (clean pre) "/" = false →
        FS.Unmount m pre = .error (.invalidPre (clean pre)))
    ∧ (hasPre (clean pre) "/" = true → lookupA m.fsmap (clean pre) = none →
        FS.Unmount m pre = .error (.notMounted (clean pre)))
    ∧ (hasPre (clean pre) "/" = true → (lookupA m.fsmap (clean pre)).isSome = true →
        clean pre ∈ m.mountPoints →
        FS.Unmount m pre
          = .ok ⟨removeFirst m.mountPoints (clean pre), eraseA m.fsmap (clean pre)⟩)
    ∧ (∀ x, lookupA (eraseA m.fsmap (clean pre)) x
        = if x = clean pre then none else lookupA m.fsmap x)
    ∧ FS.Mount (FS.new : FS β) "/x" b = .ok ⟨["/x"], [("/x", b)]⟩
    ∧ FS.Unmount (⟨["/x"], [("/x", b)]⟩ : FS β) "/x" = .ok ⟨[], []⟩
    ∧ FS.Unmount (FS.new : FS β) "/x" = .error (.notMounted "/x") := by
  refine ⟨?_, ?_, ?_, fun x => lookupA_eraseA, rfl, rfl, rfl⟩
  · intro h
    simp [FS.Unmount, h]
  · intro h1 h2
    simp [FS.Unmount, h1, h2]
  · intro h1 h2 h3
    rcases Option.isSome_iff_exists.1 h2 with ⟨v, hv⟩
    simp [FS.Unmount, h1, hv, h3]

/-- C7 witness: removing the only binding empties the table, and a
never-mounted prefix is reported as not mounted. -/
theorem claim7_witness :
    FS.Unmount (⟨["/y"], [("/y", ())]⟩ : FS Unit) "/y" = .ok ⟨[], []⟩
    ∧ FS.Unmount (FS.new : FS Unit) "/z" = .error (.notMounted "/z") := by
  have h := claim7_unmount (⟨["/y"], [("/y", ())]⟩ : FS Unit) "/y" ()
  have h2 := claim7_unmount (FS.new : FS Unit) "/z" ()
  exact ⟨h.2.2.1 (by decide) (by decide) (by decide),
    h2.2.1 (by decide) rfl⟩

/-! ### Claim C8 -/

/-- C8: when a path resolves to a backend, an error value returned by
the delegated open or list-directory call is surfaced to the caller
carrying the backend's error value unchanged. -/
theorem claim8_passthrough {β ε φ ξ : Type} (m : FS β) (name : String) :
    (∀ (ob : β → String → Except ε φ) (p : String) (src : β) (e : ε),
        findM m.mountPoints (clean name) = some p →
        lookupA m.fsmap p = some src →
        ob src (trimPre (clean name) (p ++ "/")) = .error e →
        FS.Open m ob name = .error (.backendErr e))
    ∧ (∀ (rb : β → String → Except ε (List ξ)) (src : β) (e : ε),
        ¬(clean name = "." ∨ clean name = "/") →
        lookupA m.fsmap (absName (clean name)) = some src →
        rb src "." = .error e →
        FS.ReadDir m rb name = .error (.backendErr e))
    ∧ (∀ (rb : β → String → Except ε (List ξ)) (p : String) (src : β) (e : ε),
        ¬(clean name = "." ∨ clean name = "/") →
        lookupA m.fsmap (absName (clean name)) = none →
        findM m.mountPoints (absName (clean name)) = some p →
        lookupA m.fsmap p = some src →
        rb src (trimPre (absName (clean name)) (p ++ "/")) = .error e →
        FS.ReadDir m rb name = .error (.backendErr e)) := by
  refine ⟨?_, ?_, ?_⟩
  · intro ob p src e hf hsrc herr
    simp [FS.Open, hf, hsrc, herr, passB]
  · intro rb src e hroot hsrc herr
    have hne1 : ¬(clean name = ".") := fun hc => hroot (Or.inl hc)
    have hne2 : ¬(clean name = "/") := fun hc => hroot (Or.inr hc)
    simp [FS.ReadDir, FS.readDirAbs, hne1, hne2, hsrc, herr, passList]
  · intro rb p src e hroot hnone hf hsrc herr
    have hne1 : ¬(clean name = ".") := fun hc => hroot (Or.inl hc)
    have hne2 : ¬(clean name = "/") := fun hc => hroot (Or.inr hc)
    simp [FS.ReadDir, FS.readDirAbs, hne1, hne2, hnone, hf, hsrc, herr, passList]

/-- C8 witness: a backend failing with `"boom"` surfaces `"boom"` from
both open and list-directory. -/
theorem claim8_witness :
    FS.Open (⟨["/e"], [("/e", ())]⟩ : FS Unit) errOpenB "/e/f"
        = Except.error (LookupErr.backendErr "boom")
    ∧ FS.ReadDir (⟨["/e"], [("/e", ())]⟩ : FS Unit) errListB "/e"
        = Except.error (LookupErr.backendErr "boom") := by
  have h := claim8_passthrough (ε := String) (φ := Unit) (ξ := Unit)
    (⟨["/e"], [("/e", ())]⟩ : FS Unit) "/e/f"
  have h2 := claim8_passthrough (ε := String) (φ := Unit) (ξ := Unit)
    (⟨["/e"], [("/e", ())]⟩ : FS Unit) "/e"
  exact ⟨h.1 errOpenB "/e" () "boom" (by decide) rfl rfl,
    h2.2.1 errListB () "boom" (by decide) rfl rfl⟩

/-! ### Claim C9 -/

/-- C9: on every state reachable by mount/unmount sequences, the
mount-point list never places a prefix of another entry before it (a
textual leading run earlier in the list forces equality, and longer
entries sort first), and the mount-point list carries exactly the keys
of the prefix-to-backend map. -/
theorem claim9_invariant {β : Type} (m : FS β) (h : Reachable m) :
    List.Pairwise (fun a b => hasPre b a = true → a = b) m.mountPoints
    ∧ (∀ x, x ∈ m.mountPoints ↔ x ∈ m.fsmap.map Prod.fst) := by
  rcases inv_reachable h with ⟨hmem, hnod, hpair⟩
  constructor
  · refine List.Pairwise.imp ?_ hpair
    intro a b hab hpre
    have hdata : a.data = b.data := isPre_eq_of_length hpre hab
    cases a; cases b
    cases hdata
    rfl
  · intro x
    rw [hmem x, lookupA_isSome_iff]

/-- C9 witness: the invariant on the table built by mounting `"/a"` then
`"/a/b"`. -/
theorem claim9_witness :
    List.Pairwise (fun a b => hasPre b a = true → a = b)
        (["/a/b", "/a"] : List String)
    ∧ (("/a" : String) ∈ (["/a/b", "/a"] : List String)
        ↔ ("/a" : String)
            ∈ ([("/a/b", ()), ("/a", ())] : List (String × Unit)).map Prod.fst) := by
  have h1 : FS.Mount (FS.new : FS Unit) "/a" () = .ok ⟨["/a"], [("/a", ())]⟩ := rfl
  have h2 : FS.Mount (⟨["/a"], [("/a", ())]⟩ : FS Unit) "/a/b" ()
      = .ok ⟨["/a/b", "/a"], [("/a/b", ()), ("/a", ())]⟩ := rfl
  have hr : Reachable (⟨["/a/b", "/a"], [("/a/b", ()), ("/a", ())]⟩ : FS Unit) :=
    Reachable.mount (Reachable.mount Reachable.new h1) h2
  have h := claim9_invariant _ hr
  exact ⟨h.1, h.2 "/a"⟩

/-! ### Claim C10 -/

/-- C10: list-directory and stat prepend `"/"` to a normalized relative
name and continue with the absolute form, while open performs no such
adjustment, so with only absolute prefixes mounted, open of any name
whose normalization is relative fails with not-found; concretely, with
`"/quux"` mounted, listing `"quux"` delegates to the backend while
opening `"quux/1.txt"` fails. -/
theorem claim10_relative {β ε φ ξ ψ : Type} :
    (∀ (m : FS β) (rb : β → String → Except ε (List ξ)) (name : String),
        clean name ≠ "." → clean name ≠ "/" →
        FS.ReadDir m rb name = FS.readDirAbs m rb (absName (clean name)))
    ∧ (∀ (m : FS β) (sb : β → String → Except ε ψ) (name : String),
        clean name ≠ "." → clean name ≠ "/" →
        FS.Stat m sb name = FS.statAbs m sb (absName (clean name)))
    ∧ (∀ (m : FS β) (ob : β → String → Except ε φ) (name : String),
        (∀ p ∈ m.mountPoints, hasPre p "/" = true) →
        hasPre (clean name) "/" = false →
        FS.Open m ob name = .error (.notFound (clean name)))
    ∧ (∀ (u : β) (rb : β → String → Except ε (List ξ)),
        FS.ReadDir (⟨["/quux"], [("/quux", u)]⟩ : FS β) rb "quux"
          = passList (rb u "."))
    ∧ (∀ (u : β) (ob : β → String → Except ε φ),
        FS.Open (⟨["/quux"], [("/quux", u)]⟩ : FS β) ob "quux/1.txt"
          = .error (.notFound "quux/1.txt")) := by
  refine ⟨?_, ?_, ?_, fun u rb => rfl, fun u ob => rfl⟩
  · intro m rb name hne1 hne2
    simp [FS.ReadDir, hne1, hne2]
  · intro m sb name hne1 hne2
    simp [FS.Stat, hne1, hne2]
  · intro m ob name habs hrel
    have hnone : findM m.mountPoints (clean name) = none := by
      rw [findM_eq_none_iff]
      intro p hp
      exact hasPre_slash_none (habs p hp) hrel
    simp [FS.Open, hnone]

/-- C10 witness: the concrete divergence with `"/quux"` mounted. -/
theorem claim10_witness :
    FS.ReadDir (⟨["/quux"], [("/quux", ())]⟩ : FS Unit) okListB "quux"
        = Except.ok []
    ∧ FS.Open (⟨["/quux"], [("/quux", ())]⟩ : FS Unit) okUnitB "quux/1.txt"
        = Except.error (LookupErr.notFound "quux/1.txt") := by
  have hA := claim10_relative (β := Unit) (ε := String) (φ := Unit) (ξ := Unit)
    (ψ := Unit)
  have hB := claim10_relative (β := Unit) (ε := Unit) (φ := Unit) (ξ := Unit)
    (ψ := Unit)
  constructor
  · have h1 := hA.1 (⟨["/quux"], [("/quux", ())]⟩ : FS Unit) okListB "quux"
      (by decide) (by decide)
    exact h1.trans (by decide)
  · exact hB.2.2.1 (⟨["/quux"], [("/quux", ())]⟩ : FS Unit) okUnitB "quux/1.txt"
      (by decide) (by decide)

end Multifs
